import Mathlib

/-!
Verification of the `print-big-text-rs` library (a Rust crate that renders a
string as 5-row ASCII art).

The development shallowly embeds the two source modules:

* `src/character_maps.rs` — the glyph-table loader.  A `CharacterMap` is the
  Rust type `HashMap<char, [String; 5]>`; it is modelled here as an
  association list with unique keys maintained by `insert` (HashMap iteration
  order is implementation-defined, so the entry order of the model carries no
  specification weight beyond set membership).  `from_json` in the source is
  `serde_json::from_str::<HashMap<char, [String; 5]>>`; the JSON text is
  abstracted to its structural content, an ordered list of
  (key string, array-of-strings value) entries, and the embedding follows
  serde's deserialization semantics for the target type: a `char` key parses
  only from a string of exactly one character, a `[String; 5]` value parses
  only from an array of exactly five strings, entries are processed in
  document order and inserted into the map (later duplicate keys overwrite),
  and the first bad entry aborts with an error.

  The four category tables (`ascii_letters`, `digits`, `punctuation` and
  `whitespace`) parse JSON files embedded with `include_str!`; those data
  files are not part of the sources verified here, so statements about
  `printables` and about the default table of `BigText::new` are universally
  quantified over the category tables.

* `src/lib.rs` — the `BigText` renderer.  Its output sink (`impl Write`) is
  modelled by a function saying whether the n-th write call succeeds,
  together with a state recording the calls made and the bytes successfully
  written; the `?` operator of the Rust loops becomes explicit
  short-circuiting.
-/

namespace PrintBigTextRs

/-- A glyph: the Rust value type `[String; 5]` of a `CharacterMap`
(`src/character_maps.rs`, line 13) — exactly five row strings. -/
structure Glyph where
  r0 : String
  r1 : String
  r2 : String
  r3 : String
  r4 : String
deriving DecidableEq, Repr

/-- `arr[row]` for `row` in `0..5`: the row strings of a glyph, in order. -/
def Glyph.row (g : Glyph) : Fin 5 → String
  | ⟨0, _⟩ => g.r0
  | ⟨1, _⟩ => g.r1
  | ⟨2, _⟩ => g.r2
  | ⟨3, _⟩ => g.r3
  | ⟨4, _⟩ => g.r4

/-- The Rust type `CharacterMap = HashMap<char, [String; 5]>`
(`src/character_maps.rs`, line 13), modelled as an association list.
Maps built by `CharacterMap.insert` from `CharacterMap.empty` have unique
keys, as every `HashMap` does; the order of `entries` models the
implementation-defined iteration order. -/
structure CharacterMap where
  entries : List (Char × Glyph)
deriving DecidableEq, Repr

/-- `HashMap::new()`: the empty map. -/
def CharacterMap.empty : CharacterMap := ⟨[]⟩

/-- First-match lookup in an entry list (the underlying operation of
`HashMap::get` on the association-list model). -/
def lookupEntries : List (Char × Glyph) → Char → Option Glyph
  | [], _ => none
  | (k, v) :: rest, c => if k = c then some v else lookupEntries rest c

/-- `HashMap::get(&c)`: look the character up in the map. -/
def CharacterMap.get (m : CharacterMap) (c : Char) : Option Glyph :=
  lookupEntries m.entries c

/-- Drop every entry bound to the key `c`. -/
def removeKey (c : Char) : List (Char × Glyph) → List (Char × Glyph)
  | [] => []
  | (k, v) :: rest =>
    if k = c then removeKey c rest else (k, v) :: removeKey c rest

/-- `HashMap::insert(c, g)`: bind `c` to `g`, replacing any existing binding
(the model puts the new binding first and drops the old one; entry order is
not observable through map semantics). -/
def CharacterMap.insert (m : CharacterMap) (c : Char) (g : Glyph) : CharacterMap :=
  ⟨(c, g) :: removeKey c m.entries⟩

/-- `HashMap::keys()`: the keys in iteration order. -/
def CharacterMap.keys (m : CharacterMap) : List Char :=
  m.entries.map Prod.fst

/-- `HashMap::extend(other)`: insert every entry of `other` into `m`,
later entries overwriting earlier bindings. -/
def CharacterMap.extend (m other : CharacterMap) : CharacterMap :=
  other.entries.foldl (fun acc p => acc.insert p.1 p.2) m

/-- The keys of `m` are pairwise distinct.  True of every Rust `HashMap`
value; in the model it is an invariant of maps built by `insert`. -/
def CharacterMap.NodupKeys (m : CharacterMap) : Prop :=
  m.keys.Nodup

instance (m : CharacterMap) : Decidable m.NodupKeys := by
  unfold CharacterMap.NodupKeys; infer_instance

/-- `printables()` (`src/character_maps.rs`, lines 108–117): start from an
empty map and `extend` it with the four category tables in the fixed order
letters → digits → punctuation → whitespace.  The category tables are
parameters because their JSON data files (embedded with `include_str!`) are
not part of the verified sources. -/
def printables (lettersM digitsM punctM wsM : CharacterMap) : CharacterMap :=
  (((CharacterMap.empty.extend lettersM).extend digitsM).extend punctM).extend wsM

/-- Errors of the glyph-table loader, following serde's rejection cases for
the target type `HashMap<char, [String; 5]>`:
`invalidKey` for a key string that is not exactly one character and
`invalidLength` for a value array that does not hold exactly five strings. -/
inductive LoadError where
  | invalidKey
  | invalidLength
deriving DecidableEq, Repr

/-- serde deserialization of a `char` from a JSON string: it succeeds exactly
when the string consists of one character, and yields that character. -/
def parseKey (s : String) : Except LoadError Char :=
  match s.toList with
  | [c] => .ok c
  | _ => .error .invalidKey

/-- serde deserialization of a `[String; 5]` from a JSON array of strings: it
succeeds exactly when the array holds five strings, used as-is. -/
def parseGlyph (rows : List String) : Except LoadError Glyph :=
  match rows with
  | [a, b, c, d, e] => .ok ⟨a, b, c, d, e⟩
  | _ => .error .invalidLength

/-- One top-level entry of a structurally well-formed glyph source: a key
string paired with an array of strings. -/
abbrev SourceEntry := String × List String

/-- The loop of `from_json`: deserialize the entries in document order,
inserting each into the accumulated map; the first bad entry aborts. -/
def from_json_aux (m : CharacterMap) : List SourceEntry → Except LoadError CharacterMap
  | [] => .ok m
  | e :: rest =>
    match parseKey e.1 with
    | .error err => .error err
    | .ok c =>
      match parseGlyph e.2 with
      | .error err => .error err
      | .ok g => from_json_aux (m.insert c g) rest

/-- `from_json` (`src/character_maps.rs`, lines 119–122):
`serde_json::from_str::<CharacterMap>` on a structurally well-formed object
source, abstracted to its ordered entry list. -/
def from_json (src : List SourceEntry) : Except LoadError CharacterMap :=
  from_json_aux CharacterMap.empty src

/-- The `BigText` struct (`src/lib.rs`, lines 41–48). -/
structure BigText where
  text : String
  supported_characters : String
  character_map : CharacterMap
deriving Repr

/-- `BigText::get_supported_characters` (`src/lib.rs`, lines 218–226):
push every key of the map onto an initially empty string. -/
def get_supported_characters (m : CharacterMap) : String :=
  m.keys.foldl (fun s c => s.push c) ""

/-- `BigText::new` (`src/lib.rs`, lines 93–110).  `printablesM` stands for
the value of `character_maps::printables()`, the default table used when no
map is supplied; it is a parameter because the embedded glyph data files are
not part of the verified sources. -/
def BigText.new (text : String) (character_map : Option CharacterMap)
    (printablesM : CharacterMap) : BigText :=
  let cm := match character_map with
    | none => printablesM
    | some map => map
  { text := text
    supported_characters := get_supported_characters cm
    character_map := cm }

/-- `BigText::set_text` (`src/lib.rs`, lines 155–158). -/
def BigText.set_text (bt : BigText) (text : String) : BigText :=
  { bt with text := text }

/-- `BigText::set_character_map` (`src/lib.rs`, lines 253–257): store the new
map and recompute `supported_characters` from it. -/
def BigText.set_character_map (bt : BigText) (m : CharacterMap) : BigText :=
  { bt with character_map := m, supported_characters := get_supported_characters m }

/-- A model of the output sink (`stream: &mut dyn Write`): `ok n` says
whether the n-th write call issued to this sink succeeds. -/
structure Sink where
  ok : Nat → Bool

/-- Observable state of the sink: how many write calls were issued and the
bytes successfully written so far. -/
structure SinkState where
  count : Nat
  output : String
deriving DecidableEq, Repr

/-- One `write!` call: a successful call appends its chunk to the output, a
failed call appends nothing; either way the call counter advances. -/
def writeStr (s : Sink) (st : SinkState) (chunk : String) : SinkState × Bool :=
  if s.ok st.count then (⟨st.count + 1, st.output ++ chunk⟩, true)
  else (⟨st.count + 1, st.output⟩, false)

/-- The chunk `print` writes for character `c` of the text at row `row`
(`src/lib.rs`, lines 204–207): the glyph row followed by one space when the
map has the character, and six spaces otherwise. -/
def charChunk (m : CharacterMap) (row : Fin 5) (c : Char) : String :=
  match m.get c with
  | some g => g.row row ++ " "
  | none => "      "

/-- The inner loop of `print` for one row: write the chunk of every text
character in order, stopping at the first failed write (the `?` operator). -/
def printCols (m : CharacterMap) (row : Fin 5) (s : Sink) :
    List Char → SinkState → SinkState × Bool
  | [], st => (st, true)
  | c :: rest, st =>
    let r := writeStr s st (charChunk m row c)
    if r.2 then printCols m row s rest r.1 else (r.1, false)

/-- One iteration of the outer loop of `print`: the inner loop over the text
followed by the newline write. -/
def printRow (m : CharacterMap) (text : List Char) (row : Fin 5) (s : Sink)
    (st : SinkState) : SinkState × Bool :=
  let r := printCols m row s text st
  if r.2 then writeStr s r.1 "\n" else (r.1, false)

/-- The outer loop of `print` over the row indices `0..5`. -/
def printRows (m : CharacterMap) (text : List Char) (s : Sink) :
    List (Fin 5) → SinkState → SinkState × Bool
  | [], st => (st, true)
  | row :: rest, st =>
    let r := printRow m text row s st
    if r.2 then printRows m text s rest r.1 else (r.1, false)

/-- `BigText::print` (`src/lib.rs`, lines 195–215): for each row in `0..5`,
for each character of the stored text, write its chunk, then write a
newline; the first failed write aborts the call with an error.  The result
records the final sink state and whether the call returned `Ok`. -/
def BigText.print (bt : BigText) (s : Sink) (st : SinkState) : SinkState × Bool :=
  printRows bt.character_map bt.text.toList s (List.finRange 5) st

/-- `impl Display for BigText` (`src/lib.rs`, lines 274–293): the same
nested loops as `print`, appending to the formatter; the model returns the
string appended to the formatter. -/
def BigText.fmt (bt : BigText) : String :=
  (List.finRange 5).foldl
    (fun acc row =>
      (bt.text.toList.foldl
        (fun acc c => acc ++ charChunk bt.character_map row c) acc) ++ "\n")
    ""

/-- Run a list of writes against the sink, stopping at the first failure:
the common shape of all the write loops of `print`. -/
def runWrites (s : Sink) : List String → SinkState → SinkState × Bool
  | [], st => (st, true)
  | w :: ws, st =>
    let r := writeStr s st w
    if r.2 then runWrites s ws r.1 else (r.1, false)

/-- The chunks one row of `print` writes: the chunk of every text character
in order, then the newline. -/
def rowChunks (m : CharacterMap) (text : List Char) (row : Fin 5) : List String :=
  text.map (charChunk m row) ++ ["\n"]

/-- All the chunks one `print` call writes, in order. -/
def printChunks (m : CharacterMap) (text : List Char) : List String :=
  ((List.finRange 5).map (rowChunks m text)).flatten

/-- Stated from the specification: output line `r` is the concatenation,
over the characters of the text in order, of the glyph's row `r` followed by
one space when the character is a key of the table, and of exactly six
space characters when it is not. -/
def lineSpec (m : CharacterMap) (text : String) (r : Fin 5) : String :=
  String.join (text.toList.map (fun c =>
    match m.get c with
    | some g => g.row r ++ " "
    | none => "      "))

/-- Drop the error of an `Except`. -/
def exceptToOption {ε α : Type} : Except ε α → Option α
  | .ok a => some a
  | .error _ => none

/-- The value array of the last source entry whose key string consists of
exactly the character `c` (later entries take precedence, matching
last-write-wins insertion). -/
def sourceLookup : List SourceEntry → Char → Option (List String)
  | [], _ => none
  | e :: rest, c =>
    match sourceLookup rest c with
    | some rows => some rows
    | none => if e.1.toList = [c] then some e.2 else none

/-- The characters named by the one-character keys of a source, in order,
entries with a key string of any other length skipped. -/
def srcKeyChars : List SourceEntry → List Char
  | [] => []
  | e :: rest =>
    match e.1.toList with
    | [c] => c :: srcKeyChars rest
    | _ => srcKeyChars rest

/-- A mutating call on a `BigText` value: `set_text` or `set_character_map`
(the two setters of `src/lib.rs`). -/
inductive BigTextOp where
  | setTextOp : String → BigTextOp
  | setMapOp : CharacterMap → BigTextOp

/-- Apply one setter call. -/
def applyOp (bt : BigText) : BigTextOp → BigText
  | .setTextOp s => bt.set_text s
  | .setMapOp m => bt.set_character_map m

/-- The derived-field invariant of `BigText`: the stored
`supported_characters` string holds exactly the keys of the stored
`character_map`. -/
def SupportedCharsInv (bt : BigText) : Prop :=
  ∀ c, c ∈ bt.supported_characters.toList ↔ (bt.character_map.get c).isSome = true

/-! ### String helper lemmas -/

theorem join_data (l : List String) :
    (String.join l).data = (l.map String.data).flatten := by
  simp [String.join_eq]

theorem str_append_empty (s : String) : s ++ "" = s := by
  apply String.ext
  simp [String.data_append]

theorem str_empty_append (s : String) : "" ++ s = s := by
  apply String.ext
  simp [String.data_append]

theorem str_append_assoc (a b c : String) : a ++ b ++ c = a ++ (b ++ c) := by
  apply String.ext
  simp [String.data_append]

theorem join_nil : String.join [] = "" := rfl

theorem join_cons (a : String) (l : List String) :
    String.join (a :: l) = a ++ String.join l := by
  apply String.ext
  simp [join_data, String.data_append]

theorem join_append (l₁ l₂ : List String) :
    String.join (l₁ ++ l₂) = String.join l₁ ++ String.join l₂ := by
  apply String.ext
  simp [join_data, String.data_append]

theorem join_flatten (l : List (List String)) :
    String.join l.flatten = String.join (l.map String.join) := by
  induction l with
  | nil => rfl
  | cons x xs ih => simp [join_append, join_cons, ih]

theorem foldl_append_join {α : Type} (f : α → String) (l : List α) (acc : String) :
    l.foldl (fun a x => a ++ f x) acc = acc ++ String.join (l.map f) := by
  induction l generalizing acc with
  | nil => simp [join_nil, str_append_empty]
  | cons x xs ih =>
    simp only [List.foldl_cons, List.map_cons, join_cons, ih, str_append_assoc]

/-! ### The write loop of `print` -/

theorem runWrites_singleton (s : Sink) (w : String) (st : SinkState) :
    runWrites s [w] st = writeStr s st w := by
  by_cases h : s.ok st.count = true <;> simp [runWrites, writeStr, h]

theorem runWrites_append (s : Sink) (ws₁ ws₂ : List String) (st : SinkState) :
    runWrites s (ws₁ ++ ws₂) st =
      (if (runWrites s ws₁ st).2 then runWrites s ws₂ (runWrites s ws₁ st).1
       else runWrites s ws₁ st) := by
  induction ws₁ generalizing st with
  | nil => simp [runWrites]
  | cons w ws ih =>
    by_cases h : s.ok st.count = true <;>
      simp [runWrites, writeStr, h, ih]

theorem runWrites_all_ok (s : Sink) (ws : List String) (st : SinkState)
    (h : ∀ i, i < ws.length → s.ok (st.count + i) = true) :
    runWrites s ws st =
      (⟨st.count + ws.length, st.output ++ String.join ws⟩, true) := by
  induction ws generalizing st with
  | nil => simp [runWrites, join_nil, str_append_empty]
  | cons w ws ih =>
    have hok : s.ok st.count = true := by simpa using h 0 (by simp)
    have hrest : ∀ i, i < ws.length → s.ok (st.count + 1 + i) = true := by
      intro i hi
      have := h (i + 1) (by simpa using Nat.succ_lt_succ hi)
      simpa [Nat.add_assoc, Nat.add_comm 1 i] using this
    simp only [runWrites, writeStr, hok, if_true]
    rw [ih ⟨st.count + 1, st.output ++ w⟩ hrest]
    simp [join_cons, str_append_assoc, Nat.add_assoc, Nat.add_comm 1 ws.length]

theorem runWrites_first_fail (s : Sink) (ws : List String) (st : SinkState) (k : Nat)
    (hk : k < ws.length)
    (hpre : ∀ i, i < k → s.ok (st.count + i) = true)
    (hfail : s.ok (st.count + k) = false) :
    runWrites s ws st =
      (⟨st.count + k + 1, st.output ++ String.join (ws.take k)⟩, false) := by
  induction ws generalizing st k with
  | nil => simp at hk
  | cons w ws ih =>
    cases k with
    | zero =>
      have h0 : s.ok st.count = false := by simpa using hfail
      simp [runWrites, writeStr, h0, join_nil, str_append_empty]
    | succ k =>
      have hok : s.ok st.count = true := by simpa using hpre 0 (by omega)
      have hpre' : ∀ i, i < k → s.ok (st.count + 1 + i) = true := by
        intro i hi
        have := hpre (i + 1) (by omega)
        simpa [Nat.add_assoc, Nat.add_comm 1 i] using this
      have hfail' : s.ok (st.count + 1 + k) = false := by
        simpa [Nat.add_assoc, Nat.add_comm 1 k] using hfail
      simp only [runWrites, writeStr, hok, if_true]
      rw [ih ⟨st.count + 1, st.output ++ w⟩ k (by simpa using Nat.lt_of_succ_lt_succ hk) hpre' hfail']
      simp [join_cons, str_append_assoc]
      omega

theorem runWrites_ok_iff (s : Sink) (ws : List String) (st : SinkState) :
    (runWrites s ws st).2 = true ↔
      ∀ i, i < ws.length → s.ok (st.count + i) = true := by
  induction ws generalizing st with
  | nil => simp [runWrites]
  | cons w ws ih =>
    by_cases hok : s.ok st.count = true
    · simp only [runWrites, writeStr, hok, if_true]
      rw [ih ⟨st.count + 1, st.output ++ w⟩]
      constructor
      · intro h i hi
        cases i with
        | zero => simpa using hok
        | succ i =>
          have hi' : i < ws.length := by simp at hi; omega
          have := h i hi'
          simpa [Nat.add_assoc, Nat.add_comm 1 i] using this
      · intro h i hi
        have := h (i + 1) (by simp; omega)
        simpa [Nat.add_assoc, Nat.add_comm 1 i] using this
    · simp only [runWrites, writeStr, hok]
      simp only [Bool.false_eq_true, if_false]
      constructor
      · intro h; exact absurd h (by simp)
      · intro h
        have := h 0 (by simp)
        simp at this
        exact absurd this hok

/-! ### CharacterMap lemmas -/

theorem lookupEntries_isSome_iff (l : List (Char × Glyph)) (c : Char) :
    (lookupEntries l c).isSome = true ↔ c ∈ l.map Prod.fst := by
  induction l with
  | nil => simp [lookupEntries]
  | cons a l ih =>
    obtain ⟨k, v⟩ := a
    by_cases h : k = c
    · subst h
      simp [lookupEntries]
    · simp only [lookupEntries, if_neg h, List.map_cons, List.mem_cons]
      rw [ih]
      constructor
      · intro hm; exact Or.inr hm
      · intro hm
        rcases hm with hm | hm
        · exact absurd hm.symm h
        · exact hm

theorem get_isSome_iff_mem_keys (m : CharacterMap) (c : Char) :
    (m.get c).isSome = true ↔ c ∈ m.keys :=
  lookupEntries_isSome_iff m.entries c

theorem removeKey_sublist (c : Char) (l : List (Char × Glyph)) :
    List.Sublist (removeKey c l) l := by
  induction l with
  | nil => simp [removeKey]
  | cons a l ih =>
    obtain ⟨k, v⟩ := a
    by_cases hk : k = c
    · simp only [removeKey, if_pos hk]
      exact ih.cons (k, v)
    · simp only [removeKey, if_neg hk]
      exact ih.cons₂ (k, v)

theorem not_mem_map_fst_removeKey (c : Char) (l : List (Char × Glyph)) :
    c ∉ (removeKey c l).map Prod.fst := by
  induction l with
  | nil => simp [removeKey]
  | cons a l ih =>
    obtain ⟨k, v⟩ := a
    by_cases hk : k = c
    · simpa [removeKey, if_pos hk] using ih
    · simp only [removeKey, if_neg hk, List.map_cons, List.mem_cons]
      intro hmem
      rcases hmem with hmem | hmem
      · exact hk hmem.symm
      · exact ih hmem

theorem lookupEntries_removeKey_ne (l : List (Char × Glyph)) (c c' : Char) (h : ¬ c' = c) :
    lookupEntries (removeKey c l) c' = lookupEntries l c' := by
  induction l with
  | nil => rfl
  | cons a l ih =>
    obtain ⟨k, v⟩ := a
    by_cases hk : k = c
    · subst hk
      have hkc : ¬ k = c' := fun hc => h hc.symm
      simp [removeKey, lookupEntries, hkc, ih]
    · simp [removeKey, hk, lookupEntries, ih]

theorem get_insert (m : CharacterMap) (c c' : Char) (g : Glyph) :
    (m.insert c g).get c' = if c' = c then some g else m.get c' := by
  by_cases h : c' = c
  · subst h
    simp [CharacterMap.insert, CharacterMap.get, lookupEntries]
  · have hcc : ¬ c = c' := fun hc => h hc.symm
    simp only [CharacterMap.insert, CharacterMap.get, lookupEntries, if_neg hcc, if_neg h]
    exact lookupEntries_removeKey_ne m.entries c c' h

theorem nodupKeys_insert (m : CharacterMap) (c : Char) (g : Glyph)
    (h : m.NodupKeys) : (m.insert c g).NodupKeys := by
  unfold CharacterMap.NodupKeys CharacterMap.keys at *
  simp only [CharacterMap.insert, List.map_cons, List.nodup_cons]
  exact ⟨not_mem_map_fst_removeKey c m.entries,
         ((removeKey_sublist c m.entries).map Prod.fst).nodup h⟩

theorem foldl_insert_get (l : List (Char × Glyph)) (m : CharacterMap) (c : Char)
    (hl : (l.map Prod.fst).Nodup) :
    (l.foldl (fun acc p => acc.insert p.1 p.2) m).get c =
      match lookupEntries l c with
      | some g => some g
      | none => m.get c := by
  induction l generalizing m with
  | nil => simp [lookupEntries]
  | cons a l ih =>
    obtain ⟨k, v⟩ := a
    simp only [List.map_cons, List.nodup_cons] at hl
    simp only [List.foldl_cons]
    rw [ih (m.insert k v) hl.2]
    cases hcl : lookupEntries l c with
    | some g =>
      have hkc : ¬ k = c := by
        intro hk
        subst hk
        have : k ∈ l.map Prod.fst := by
          rw [← lookupEntries_isSome_iff, hcl]
          rfl
        exact hl.1 this
      simp [lookupEntries, hkc, hcl]
    | none =>
      simp only [lookupEntries]
      rw [get_insert]
      by_cases h : k = c
      · subst h
        simp
      · have hck : ¬ c = k := fun hc => h hc.symm
        simp [h, hck, hcl]

theorem extend_get (m other : CharacterMap) (c : Char) (h : other.NodupKeys) :
    (m.extend other).get c =
      match other.get c with
      | some g => some g
      | none => m.get c :=
  foldl_insert_get other.entries m c h

theorem empty_get (c : Char) : CharacterMap.empty.get c = none := rfl

theorem printables_get (lettersM digitsM punctM wsM : CharacterMap)
    (hL : lettersM.NodupKeys) (hD : digitsM.NodupKeys)
    (hP : punctM.NodupKeys) (hW : wsM.NodupKeys) (c : Char) :
    (printables lettersM digitsM punctM wsM).get c =
      match wsM.get c with
      | some g => some g
      | none =>
        match punctM.get c with
        | some g => some g
        | none =>
          match digitsM.get c with
          | some g => some g
          | none => lettersM.get c := by
  unfold printables
  rw [extend_get _ _ _ hW, extend_get _ _ _ hP, extend_get _ _ _ hD, extend_get _ _ _ hL]
  cases wsM.get c <;> cases punctM.get c <;> cases digitsM.get c <;>
    cases hcl : lettersM.get c <;> simp [empty_get]

/-! ### Supported characters -/

theorem foldl_push_data (l : List Char) (s : String) :
    (l.foldl (fun s c => s.push c) s).data = s.data ++ l := by
  induction l generalizing s with
  | nil => simp
  | cons c l ih =>
    simp only [List.foldl_cons, ih]
    simp [String.push]

theorem get_supported_characters_toList (m : CharacterMap) :
    (get_supported_characters m).toList = m.keys := by
  show (get_supported_characters m).data = m.keys
  unfold get_supported_characters
  rw [foldl_push_data]
  rfl

/-! ### `print` as a write sequence -/

theorem printCols_eq (m : CharacterMap) (row : Fin 5) (s : Sink)
    (text : List Char) (st : SinkState) :
    printCols m row s text st = runWrites s (text.map (charChunk m row)) st := by
  induction text generalizing st with
  | nil => rfl
  | cons c cs ih =>
    by_cases h : s.ok st.count = true <;>
      simp [printCols, runWrites, writeStr, h, ih]

theorem printRow_eq (m : CharacterMap) (text : List Char) (row : Fin 5) (s : Sink)
    (st : SinkState) :
    printRow m text row s st = runWrites s (rowChunks m text row) st := by
  unfold printRow rowChunks
  rw [runWrites_append, printCols_eq, runWrites_singleton]
  cases hX : runWrites s (text.map (charChunk m row)) st with
  | mk st1 b => cases b <;> simp

theorem printRows_eq (m : CharacterMap) (text : List Char) (s : Sink)
    (rows : List (Fin 5)) (st : SinkState) :
    printRows m text s rows st =
      runWrites s ((rows.map (rowChunks m text)).flatten) st := by
  induction rows generalizing st with
  | nil => rfl
  | cons row rows ih =>
    simp only [List.map_cons, List.flatten_cons]
    rw [runWrites_append]
    simp only [printRows, printRow_eq, ih]
    cases hX : runWrites s (rowChunks m text row) st with
    | mk st1 b => cases b <;> simp

theorem print_eq_runWrites (bt : BigText) (s : Sink) (st : SinkState) :
    bt.print s st =
      runWrites s (printChunks bt.character_map bt.text.toList) st :=
  printRows_eq bt.character_map bt.text.toList s (List.finRange 5) st

theorem join_rowChunks (m : CharacterMap) (text : List Char) (row : Fin 5) :
    String.join (rowChunks m text row) =
      String.join (text.map (charChunk m row)) ++ "\n" := by
  unfold rowChunks
  rw [join_append, join_cons, join_nil, str_append_empty]

theorem join_printChunks (m : CharacterMap) (text : String) :
    String.join (printChunks m text.toList) =
      String.join ((List.finRange 5).map (fun r => lineSpec m text r ++ "\n")) := by
  unfold printChunks
  rw [join_flatten, List.map_map]
  congr 1
  apply List.map_congr_left
  intro r _
  rw [Function.comp_apply, join_rowChunks]
  congr 1

theorem lineSpec_eq_join_chunks (m : CharacterMap) (text : String) (r : Fin 5) :
    lineSpec m text r = String.join (text.toList.map (charChunk m r)) := rfl

theorem fmt_eq_join (bt : BigText) :
    bt.fmt =
      String.join ((List.finRange 5).map
        (fun r => lineSpec bt.character_map bt.text r ++ "\n")) := by
  unfold BigText.fmt
  have hfun : (fun (acc : String) (row : Fin 5) =>
      (bt.text.toList.foldl (fun acc c => acc ++ charChunk bt.character_map row c) acc) ++ "\n") =
      (fun acc row => acc ++ (lineSpec bt.character_map bt.text row ++ "\n")) := by
    funext acc row
    rw [foldl_append_join, lineSpec_eq_join_chunks, str_append_assoc]
  rw [hfun, foldl_append_join (fun r => lineSpec bt.character_map bt.text r ++ "\n"),
    str_empty_append]

/-! ### Loader lemmas -/

theorem length_five_eq {α : Type} (l : List α) (h : l.length = 5) :
    ∃ a b c d e, l = [a, b, c, d, e] := by
  cases l with
  | nil => simp only [List.length_nil] at h; omega
  | cons a l1 =>
  cases l1 with
  | nil => simp only [List.length_cons, List.length_nil] at h; omega
  | cons b l2 =>
  cases l2 with
  | nil => simp only [List.length_cons, List.length_nil] at h; omega
  | cons c l3 =>
  cases l3 with
  | nil => simp only [List.length_cons, List.length_nil] at h; omega
  | cons d l4 =>
  cases l4 with
  | nil => simp only [List.length_cons, List.length_nil] at h; omega
  | cons e l5 =>
  cases l5 with
  | nil => exact ⟨a, b, c, d, e, rfl⟩
  | cons f l6 =>
    simp only [List.length_cons, List.length_nil] at h
    omega

theorem from_json_aux_ok : ∀ (src : List SourceEntry),
    (∀ e ∈ src, e.1.toList.length = 1) → (∀ e ∈ src, e.2.length = 5) →
    ∀ m : CharacterMap, ∃ m',
      from_json_aux m src = .ok m'
      ∧ (∀ c, m'.get c =
          match sourceLookup src c with
          | some rows => exceptToOption (parseGlyph rows)
          | none => m.get c)
      ∧ (m.NodupKeys → m'.NodupKeys) := by
  intro src
  induction src with
  | nil =>
    intro _ _ m
    exact ⟨m, rfl, fun c => rfl, id⟩
  | cons e rest ih =>
    intro hk hv m
    obtain ⟨c0, hc0⟩ := List.length_eq_one.mp (hk e (by simp))
    obtain ⟨a, b, c1, d, e5, hrows⟩ := length_five_eq e.2 (hv e (by simp))
    have hc0d : e.1.data = [c0] := hc0
    have hkey : parseKey e.1 = .ok c0 := by simp [parseKey, hc0d]
    have hglyph : parseGlyph e.2 = .ok ⟨a, b, c1, d, e5⟩ := by simp [parseGlyph, hrows]
    obtain ⟨m', hok, hget, hnodup⟩ :=
      ih (fun x hx => hk x (by simp [hx])) (fun x hx => hv x (by simp [hx]))
        (m.insert c0 ⟨a, b, c1, d, e5⟩)
    refine ⟨m', ?_, ?_, ?_⟩
    · simp only [from_json_aux, hkey, hglyph]
      exact hok
    · intro c
      rw [hget c]
      cases hsl : sourceLookup rest c with
      | some rows =>
        simp [sourceLookup, hsl]
      | none =>
        rw [get_insert]
        simp only [sourceLookup, hsl, hc0]
        by_cases hcc : c = c0
        · subst hcc
          simp [hglyph, exceptToOption]
        · have h1 : ¬ ([c0] = [c]) := by
            intro hx
            injection hx with h2 _
            exact hcc h2.symm
          simp [hcc, h1]
    · intro hm
      exact hnodup (nodupKeys_insert m c0 ⟨a, b, c1, d, e5⟩ hm)

theorem sourceLookup_mem : ∀ (src : List SourceEntry) (c : Char) (rows : List String),
    sourceLookup src c = some rows → ∃ s, (s, rows) ∈ src ∧ s.toList = [c] := by
  intro src
  induction src with
  | nil => intro c rows h; simp [sourceLookup] at h
  | cons e rest ih =>
    intro c rows h
    simp only [sourceLookup] at h
    cases hsl : sourceLookup rest c with
    | some r =>
      rw [hsl] at h
      simp only [Option.some.injEq] at h
      obtain ⟨s, hmem, hs⟩ := ih c r hsl
      subst h
      exact ⟨s, List.mem_cons_of_mem e hmem, hs⟩
    | none =>
      rw [hsl] at h
      by_cases hcond : e.1.toList = [c]
      · rw [if_pos hcond] at h
        simp only [Option.some.injEq] at h
        subst h
        exact ⟨e.1, List.mem_cons_self e rest, hcond⟩
      · rw [if_neg hcond] at h
        cases h

theorem sourceLookup_ne_none_iff : ∀ (src : List SourceEntry) (c : Char),
    sourceLookup src c ≠ none ↔ c ∈ srcKeyChars src := by
  intro src
  induction src with
  | nil => intro c; simp [sourceLookup, srcKeyChars]
  | cons e rest ih =>
    intro c
    simp only [sourceLookup, srcKeyChars]
    cases hsl : sourceLookup rest c with
    | some rows =>
      have hc : c ∈ srcKeyChars rest := (ih c).mp (by rw [hsl]; simp)
      constructor
      · intro _
        cases he : e.1.toList with
        | nil => exact hc
        | cons k t =>
          cases t with
          | nil => exact List.mem_cons_of_mem k hc
          | cons k2 t2 => exact hc
      · intro _
        simp
    | none =>
      constructor
      · intro hne
        by_cases hcond : e.1.toList = [c]
        · rw [hcond]
          exact List.mem_cons_self c (srcKeyChars rest)
        · rw [if_neg hcond] at hne
          exact absurd rfl hne
      · intro hmem
        by_cases hcond : e.1.toList = [c]
        · rw [if_pos hcond]
          simp
        · exfalso
          have hrest : c ∈ srcKeyChars rest := by
            cases he : e.1.toList with
            | nil => rwa [he] at hmem
            | cons k t =>
              cases t with
              | nil =>
                rw [he] at hmem
                rcases List.mem_cons.mp hmem with h1 | h1
                · subst h1
                  rw [he] at hcond
                  exact absurd rfl hcond
                · exact h1
              | cons k2 t2 => rwa [he] at hmem
          have := (ih c).mpr hrest
          rw [hsl] at this
          exact absurd rfl this

theorem from_json_aux_append : ∀ (pre : List SourceEntry),
    (∀ e ∈ pre, e.1.toList.length = 1) → (∀ e ∈ pre, e.2.length = 5) →
    ∀ (m : CharacterMap) (l : List SourceEntry),
      ∃ m', from_json_aux m (pre ++ l) = from_json_aux m' l := by
  intro pre
  induction pre with
  | nil => intro _ _ m l; exact ⟨m, rfl⟩
  | cons e rest ih =>
    intro hk hv m l
    obtain ⟨c0, hc0⟩ := List.length_eq_one.mp (hk e (by simp))
    obtain ⟨a, b, c1, d, e5, hrows⟩ := length_five_eq e.2 (hv e (by simp))
    have hc0d : e.1.data = [c0] := hc0
    have hkey : parseKey e.1 = .ok c0 := by simp [parseKey, hc0d]
    have hglyph : parseGlyph e.2 = .ok ⟨a, b, c1, d, e5⟩ := by simp [parseGlyph, hrows]
    obtain ⟨m', hm'⟩ :=
      ih (fun x hx => hk x (by simp [hx])) (fun x hx => hv x (by simp [hx]))
        (m.insert c0 ⟨a, b, c1, d, e5⟩) l
    refine ⟨m', ?_⟩
    simp only [List.cons_append, from_json_aux, hkey, hglyph]
    exact hm'

/-! ### Claim theorems -/

/-- Claim C5: for every string `s` (including the empty string and non-ASCII
strings), calling `set_text(s)` and then `text()` on a `BigText` returns
exactly `s`. -/
theorem set_text_then_text (bt : BigText) (s : String) :
    (bt.set_text s).text = s := rfl

/-- Claim C6: for every glyph table `t`, calling `set_character_map(t)` and
then `supported_characters()` returns a sequence of characters whose
underlying set is exactly the key set of `t` (membership in the returned
characters coincides with membership in `t.keys`, equivalently with `t.get`
finding the character); only set membership is guaranteed. -/
theorem set_character_map_then_supported_characters (bt : BigText)
    (t : CharacterMap) (c : Char) :
    (c ∈ (bt.set_character_map t).supported_characters.toList ↔ c ∈ t.keys)
    ∧ (c ∈ (bt.set_character_map t).supported_characters.toList ↔
        (t.get c).isSome = true) := by
  have h : (bt.set_character_map t).supported_characters =
      get_supported_characters t := rfl
  rw [h, get_supported_characters_toList]
  exact ⟨Iff.rfl, (get_isSome_iff_mem_keys t c).symm⟩

/-- Claim C10: after construction (`new`) and after every sequence of
`set_text` and `set_character_map` calls, the stored `supported_characters`
value contains exactly the characters that are keys of the currently stored
`character_map` (the derived field is never stale). -/
theorem supported_characters_never_stale (text : String)
    (cm : Option CharacterMap) (printablesM : CharacterMap)
    (ops : List BigTextOp) :
    SupportedCharsInv (ops.foldl applyOp (BigText.new text cm printablesM)) := by
  have hmap : ∀ m : CharacterMap,
      ∀ c, c ∈ (get_supported_characters m).toList ↔ (m.get c).isSome = true := by
    intro m c
    rw [get_supported_characters_toList]
    exact (get_isSome_iff_mem_keys m c).symm
  have hnew : SupportedCharsInv (BigText.new text cm printablesM) := by
    intro c
    cases cm with
    | none => exact hmap printablesM c
    | some m => exact hmap m c
  have hstep : ∀ (bt : BigText) (op : BigTextOp),
      SupportedCharsInv bt → SupportedCharsInv (applyOp bt op) := by
    intro bt op h
    cases op with
    | setTextOp s => exact h
    | setMapOp m => intro c; exact hmap m c
  have hfold : ∀ (ops : List BigTextOp) (bt : BigText),
      SupportedCharsInv bt → SupportedCharsInv (ops.foldl applyOp bt) := by
    intro ops
    induction ops with
    | nil => exact fun bt h => h
    | cons op ops ih => intro bt h; exact ih (applyOp bt op) (hstep bt op h)
  exact hfold ops _ hnew

/-- Claim C1: for every text string (including empty and non-ASCII) and every
glyph table, `print` on a non-failing sink succeeds and writes exactly the
five lines described by the specification, each terminated by a newline:
line `r` is the concatenation, over the characters of the text in original
left-to-right order, of the glyph's row `r` followed by one space when the
character is a key of the table, and of exactly six space characters when it
is not; empty text yields exactly five bare newlines. -/
theorem print_writes_five_spec_lines (bt : BigText) (s : Sink) (st : SinkState)
    (h : ∀ n, s.ok n = true) :
    (bt.print s st).2 = true
    ∧ (bt.print s st).1.output =
        st.output ++ String.join ((List.finRange 5).map
          (fun r => lineSpec bt.character_map bt.text r ++ "\n"))
    ∧ (bt.text = "" → (bt.print s st).1.output = st.output ++ "\n\n\n\n\n") := by
  have hrun := runWrites_all_ok s (printChunks bt.character_map bt.text.toList) st
    (fun i _ => h (st.count + i))
  rw [print_eq_runWrites, hrun]
  refine ⟨rfl, ?_, ?_⟩
  · show st.output ++ String.join (printChunks bt.character_map bt.text.toList) = _
    rw [join_printChunks]
  · intro hempty
    show st.output ++ String.join (printChunks bt.character_map bt.text.toList) = _
    rw [join_printChunks]
    simp only [hempty]
    rfl

/-- Witness for C1 at a concrete renderer, sink and state. -/
theorem print_writes_five_spec_lines_witness :
    (((BigText.mk "A" "A" ⟨[('A', ⟨" *** ", "*   *", "*****", "*   *", "*   *"⟩)]⟩).print
        ⟨fun _ => true⟩ ⟨0, ""⟩).2 = true)
    ∧ ((BigText.mk "A" "A" ⟨[('A', ⟨" *** ", "*   *", "*****", "*   *", "*   *"⟩)]⟩).print
        ⟨fun _ => true⟩ ⟨0, ""⟩).1.output =
        "" ++ String.join ((List.finRange 5).map
          (fun r => lineSpec ⟨[('A', ⟨" *** ", "*   *", "*****", "*   *", "*   *"⟩)]⟩ "A" r ++ "\n"))
    ∧ ((("A" : String) = "") →
        ((BigText.mk "A" "A" ⟨[('A', ⟨" *** ", "*   *", "*****", "*   *", "*   *"⟩)]⟩).print
          ⟨fun _ => true⟩ ⟨0, ""⟩).1.output = "" ++ "\n\n\n\n\n") :=
  print_writes_five_spec_lines
    (BigText.mk "A" "A" ⟨[('A', ⟨" *** ", "*   *", "*****", "*   *", "*   *"⟩)]⟩)
    ⟨fun _ => true⟩ ⟨0, ""⟩ (fun _ => rfl)

/-- Claim C9: for every `BigText` state (every text and every glyph table),
the string produced by the `Display` implementation (`fmt`) is byte-for-byte
the text that `print` writes to a non-failing sink for the same state. -/
theorem display_matches_print (bt : BigText) (s : Sink) (st : SinkState)
    (h : ∀ n, s.ok n = true) :
    (bt.print s st).1.output = st.output ++ bt.fmt ∧ (bt.print s st).2 = true := by
  have hrun := runWrites_all_ok s (printChunks bt.character_map bt.text.toList) st
    (fun i _ => h (st.count + i))
  rw [print_eq_runWrites, hrun, fmt_eq_join]
  refine ⟨?_, rfl⟩
  show st.output ++ String.join (printChunks bt.character_map bt.text.toList) = _
  rw [join_printChunks]

/-- Witness for C9 at a concrete renderer, sink and state. -/
theorem display_matches_print_witness :
    ((BigText.mk "AB" "A" ⟨[('A', ⟨"a0", "a1", "a2", "a3", "a4"⟩)]⟩).print
        ⟨fun _ => true⟩ ⟨0, ""⟩).1.output =
      "" ++ (BigText.mk "AB" "A" ⟨[('A', ⟨"a0", "a1", "a2", "a3", "a4"⟩)]⟩).fmt
    ∧ ((BigText.mk "AB" "A" ⟨[('A', ⟨"a0", "a1", "a2", "a3", "a4"⟩)]⟩).print
        ⟨fun _ => true⟩ ⟨0, ""⟩).2 = true :=
  display_matches_print (BigText.mk "AB" "A" ⟨[('A', ⟨"a0", "a1", "a2", "a3", "a4"⟩)]⟩)
    ⟨fun _ => true⟩ ⟨0, ""⟩ (fun _ => rfl)

/-- Claim C4: `print` returns an error if and only if the sink rejects one of
the writes of the call; on a sink write failure at the first failing write
`k`, the error is propagated immediately — exactly the `k` chunks before it
are written (partial output is kept, nothing further is written) and the
call stops after the failed attempt; and with a non-failing sink `print`
always succeeds, including for empty text. -/
theorem print_error_iff_sink_rejects (bt : BigText) (s : Sink) (st : SinkState) :
    ((bt.print s st).2 = false ↔
      ∃ i, i < (printChunks bt.character_map bt.text.toList).length ∧
        s.ok (st.count + i) = false)
    ∧ (∀ k, k < (printChunks bt.character_map bt.text.toList).length →
        (∀ i, i < k → s.ok (st.count + i) = true) → s.ok (st.count + k) = false →
        bt.print s st =
          (⟨st.count + k + 1,
            st.output ++
              String.join ((printChunks bt.character_map bt.text.toList).take k)⟩,
           false))
    ∧ ((∀ n, s.ok n = true) → (bt.print s st).2 = true) := by
  refine ⟨?_, ?_, ?_⟩
  · rw [print_eq_runWrites]
    have h1 : ((runWrites s (printChunks bt.character_map bt.text.toList) st).2 = false)
        ↔ ¬ ((runWrites s (printChunks bt.character_map bt.text.toList) st).2 = true) := by
      simp
    rw [h1, runWrites_ok_iff]
    push_neg
    constructor
    · rintro ⟨i, hi, hok⟩
      exact ⟨i, hi, by simpa using hok⟩
    · rintro ⟨i, hi, hok⟩
      exact ⟨i, hi, by simpa using hok⟩
  · intro k hk hpre hfail
    rw [print_eq_runWrites]
    exact runWrites_first_fail s _ st k hk hpre hfail
  · intro hall
    rw [print_eq_runWrites, runWrites_ok_iff]
    exact fun i _ => hall _

/-- Witness for C4 at a concrete renderer, sink and state. -/
theorem print_error_iff_sink_rejects_witness :
    (((BigText.mk "Z" "" ⟨[]⟩).print ⟨fun n => n != 2⟩ ⟨0, ""⟩).2 = false ↔
      ∃ i, i < (printChunks (⟨[]⟩ : CharacterMap) ("Z" : String).toList).length ∧
        (Sink.mk (fun n => n != 2)).ok (0 + i) = false)
    ∧ (∀ k, k < (printChunks (⟨[]⟩ : CharacterMap) ("Z" : String).toList).length →
        (∀ i, i < k → (Sink.mk (fun n => n != 2)).ok (0 + i) = true) →
        (Sink.mk (fun n => n != 2)).ok (0 + k) = false →
        (BigText.mk "Z" "" ⟨[]⟩).print ⟨fun n => n != 2⟩ ⟨0, ""⟩ =
          (⟨0 + k + 1,
            "" ++ String.join ((printChunks (⟨[]⟩ : CharacterMap) ("Z" : String).toList).take k)⟩,
           false))
    ∧ ((∀ n, (Sink.mk (fun n => n != 2)).ok n = true) →
        ((BigText.mk "Z" "" ⟨[]⟩).print ⟨fun n => n != 2⟩ ⟨0, ""⟩).2 = true) :=
  print_error_iff_sink_rejects (BigText.mk "Z" "" ⟨[]⟩) ⟨fun n => n != 2⟩ ⟨0, ""⟩

theorem get_eq_none_of_not_mem_keys (m : CharacterMap) (c : Char)
    (h : c ∉ m.keys) : m.get c = none := by
  cases hg : m.get c with
  | none => rfl
  | some g =>
    exact absurd ((get_isSome_iff_mem_keys m c).mp (by rw [hg]; rfl)) h

/-- Claim C3: `printables()` equals the union of the four category tables
applied in the fixed order letters, digits, punctuation, whitespace, with
later tables winning on key collision: a character has a glyph in
`printables()` exactly when it has one in some category table, and
(assuming pairwise-disjoint category key sets) its glyph equals the
originating category's glyph. -/
theorem printables_is_union (lettersM digitsM punctM wsM : CharacterMap)
    (hL : lettersM.NodupKeys) (hD : digitsM.NodupKeys)
    (hP : punctM.NodupKeys) (hW : wsM.NodupKeys)
    (hLD : ∀ c ∈ lettersM.keys, c ∉ digitsM.keys)
    (hLP : ∀ c ∈ lettersM.keys, c ∉ punctM.keys)
    (hLW : ∀ c ∈ lettersM.keys, c ∉ wsM.keys)
    (hDP : ∀ c ∈ digitsM.keys, c ∉ punctM.keys)
    (hDW : ∀ c ∈ digitsM.keys, c ∉ wsM.keys)
    (hPW : ∀ c ∈ punctM.keys, c ∉ wsM.keys) (c : Char) :
    (((printables lettersM digitsM punctM wsM).get c).isSome =
      ((lettersM.get c).isSome || (digitsM.get c).isSome
        || (punctM.get c).isSome || (wsM.get c).isSome))
    ∧ ((lettersM.get c).isSome = true →
        (printables lettersM digitsM punctM wsM).get c = lettersM.get c)
    ∧ ((digitsM.get c).isSome = true →
        (printables lettersM digitsM punctM wsM).get c = digitsM.get c)
    ∧ ((punctM.get c).isSome = true →
        (printables lettersM digitsM punctM wsM).get c = punctM.get c)
    ∧ ((wsM.get c).isSome = true →
        (printables lettersM digitsM punctM wsM).get c = wsM.get c) := by
  rw [printables_get lettersM digitsM punctM wsM hL hD hP hW c]
  refine ⟨?_, ?_, ?_, ?_, ?_⟩
  · cases wsM.get c <;> cases punctM.get c <;> cases digitsM.get c <;>
      cases lettersM.get c <;> simp
  · intro hsome
    have hmem := (get_isSome_iff_mem_keys lettersM c).mp hsome
    have hdn := get_eq_none_of_not_mem_keys digitsM c (hLD c hmem)
    have hpn := get_eq_none_of_not_mem_keys punctM c (hLP c hmem)
    have hwn := get_eq_none_of_not_mem_keys wsM c (hLW c hmem)
    simp [hdn, hpn, hwn]
  · intro hsome
    have hmem := (get_isSome_iff_mem_keys digitsM c).mp hsome
    have hpn := get_eq_none_of_not_mem_keys punctM c (hDP c hmem)
    have hwn := get_eq_none_of_not_mem_keys wsM c (hDW c hmem)
    obtain ⟨g, hg⟩ := Option.isSome_iff_exists.mp hsome
    simp [hpn, hwn, hg]
  · intro hsome
    have hmem := (get_isSome_iff_mem_keys punctM c).mp hsome
    have hwn := get_eq_none_of_not_mem_keys wsM c (hPW c hmem)
    obtain ⟨g, hg⟩ := Option.isSome_iff_exists.mp hsome
    simp [hwn, hg]
  · intro hsome
    obtain ⟨g, hg⟩ := Option.isSome_iff_exists.mp hsome
    simp [hg]

/-- Witness for C3 at concrete pairwise-disjoint category tables. -/
theorem printables_is_union_witness :
    (((printables ⟨[('A', ⟨"", "", "", "", ""⟩)]⟩ ⟨[('1', ⟨"", "", "", "", ""⟩)]⟩
        ⟨[('!', ⟨"", "", "", "", ""⟩)]⟩ ⟨[(' ', ⟨"", "", "", "", ""⟩)]⟩).get 'A').isSome =
      (((⟨[('A', ⟨"", "", "", "", ""⟩)]⟩ : CharacterMap).get 'A').isSome
        || ((⟨[('1', ⟨"", "", "", "", ""⟩)]⟩ : CharacterMap).get 'A').isSome
        || ((⟨[('!', ⟨"", "", "", "", ""⟩)]⟩ : CharacterMap).get 'A').isSome
        || ((⟨[(' ', ⟨"", "", "", "", ""⟩)]⟩ : CharacterMap).get 'A').isSome))
    ∧ (((⟨[('A', ⟨"", "", "", "", ""⟩)]⟩ : CharacterMap).get 'A').isSome = true →
        (printables ⟨[('A', ⟨"", "", "", "", ""⟩)]⟩ ⟨[('1', ⟨"", "", "", "", ""⟩)]⟩
          ⟨[('!', ⟨"", "", "", "", ""⟩)]⟩ ⟨[(' ', ⟨"", "", "", "", ""⟩)]⟩).get 'A' =
          (⟨[('A', ⟨"", "", "", "", ""⟩)]⟩ : CharacterMap).get 'A')
    ∧ (((⟨[('1', ⟨"", "", "", "", ""⟩)]⟩ : CharacterMap).get 'A').isSome = true →
        (printables ⟨[('A', ⟨"", "", "", "", ""⟩)]⟩ ⟨[('1', ⟨"", "", "", "", ""⟩)]⟩
          ⟨[('!', ⟨"", "", "", "", ""⟩)]⟩ ⟨[(' ', ⟨"", "", "", "", ""⟩)]⟩).get 'A' =
          (⟨[('1', ⟨"", "", "", "", ""⟩)]⟩ : CharacterMap).get 'A')
    ∧ (((⟨[('!', ⟨"", "", "", "", ""⟩)]⟩ : CharacterMap).get 'A').isSome = true →
        (printables ⟨[('A', ⟨"", "", "", "", ""⟩)]⟩ ⟨[('1', ⟨"", "", "", "", ""⟩)]⟩
          ⟨[('!', ⟨"", "", "", "", ""⟩)]⟩ ⟨[(' ', ⟨"", "", "", "", ""⟩)]⟩).get 'A' =
          (⟨[('!', ⟨"", "", "", "", ""⟩)]⟩ : CharacterMap).get 'A')
    ∧ (((⟨[(' ', ⟨"", "", "", "", ""⟩)]⟩ : CharacterMap).get 'A').isSome = true →
        (printables ⟨[('A', ⟨"", "", "", "", ""⟩)]⟩ ⟨[('1', ⟨"", "", "", "", ""⟩)]⟩
          ⟨[('!', ⟨"", "", "", "", ""⟩)]⟩ ⟨[(' ', ⟨"", "", "", "", ""⟩)]⟩).get 'A' =
          (⟨[(' ', ⟨"", "", "", "", ""⟩)]⟩ : CharacterMap).get 'A') :=
  printables_is_union ⟨[('A', ⟨"", "", "", "", ""⟩)]⟩ ⟨[('1', ⟨"", "", "", "", ""⟩)]⟩
    ⟨[('!', ⟨"", "", "", "", ""⟩)]⟩ ⟨[(' ', ⟨"", "", "", "", ""⟩)]⟩
    (by decide) (by decide) (by decide) (by decide)
    (by decide) (by decide) (by decide) (by decide) (by decide) (by decide) 'A'

/-- Claim C7: for every valid glyph source (one-character keys, five-string
value arrays), loading succeeds and produces a table containing one entry
per distinct valid key — the table size equals the number of distinct keys
in the source — and when the same key occurs more than once the later entry
overwrites the earlier one: the glyph found for a character is the parsed
value array of the last source entry carrying that key. -/
theorem from_json_valid_source_spec (src : List SourceEntry)
    (hk : ∀ e ∈ src, e.1.toList.length = 1)
    (hv : ∀ e ∈ src, e.2.length = 5) :
    ∃ m, from_json src = .ok m
      ∧ m.entries.length = (srcKeyChars src).dedup.length
      ∧ (∀ c, m.get c =
          (sourceLookup src c).bind (fun rows => exceptToOption (parseGlyph rows))) := by
  obtain ⟨m, hok, hget, hnodup⟩ := from_json_aux_ok src hk hv CharacterMap.empty
  have hget2 : ∀ c, m.get c =
      (sourceLookup src c).bind (fun rows => exceptToOption (parseGlyph rows)) := by
    intro c
    rw [hget c]
    cases hsl : sourceLookup src c with
    | some rows => simp
    | none => simp [empty_get]
  refine ⟨m, hok, ?_, hget2⟩
  have hmnodup : m.NodupKeys := hnodup List.nodup_nil
  have hmem : ∀ c, c ∈ m.keys ↔ c ∈ srcKeyChars src := by
    intro c
    rw [← get_isSome_iff_mem_keys, ← sourceLookup_ne_none_iff]
    rw [hget2 c]
    cases hsl : sourceLookup src c with
    | none => simp
    | some rows =>
      obtain ⟨s, hin, hs⟩ := sourceLookup_mem src c rows hsl
      obtain ⟨a, b, c1, d, e5, hrows⟩ := length_five_eq rows (hv (s, rows) hin)
      simp [hrows, parseGlyph, exceptToOption]
  have hfin : m.keys.toFinset = (srcKeyChars src).toFinset := by
    ext c
    simp only [List.mem_toFinset]
    exact hmem c
  have h1 : m.entries.length = m.keys.length := by
    show m.entries.length = (m.entries.map Prod.fst).length
    rw [List.length_map]
  have h2 : m.keys.length = m.keys.dedup.length := by
    rw [List.Nodup.dedup hmnodup]
  rw [h1, h2, ← List.card_toFinset, ← List.card_toFinset, hfin]

/-- Witness for C7 at a concrete source with a duplicated key. -/
theorem from_json_valid_source_spec_witness :
    ∃ m, from_json [("A", ["1", "2", "3", "4", "5"]),
                    ("B", ["a", "b", "c", "d", "e"]),
                    ("A", ["x", "y", "z", "w", "v"])] = .ok m
      ∧ m.entries.length =
          (srcKeyChars [("A", ["1", "2", "3", "4", "5"]),
                        ("B", ["a", "b", "c", "d", "e"]),
                        ("A", ["x", "y", "z", "w", "v"])]).dedup.length
      ∧ (∀ c, m.get c =
          (sourceLookup [("A", ["1", "2", "3", "4", "5"]),
                         ("B", ["a", "b", "c", "d", "e"]),
                         ("A", ["x", "y", "z", "w", "v"])] c).bind
            (fun rows => exceptToOption (parseGlyph rows))) :=
  from_json_valid_source_spec
    [("A", ["1", "2", "3", "4", "5"]),
     ("B", ["a", "b", "c", "d", "e"]),
     ("A", ["x", "y", "z", "w", "v"])] (by decide) (by decide)

/-- Counterexample to claim C2 as stated: an entry whose value is an array of
0 strings (within the claimed range of 0 to 5) does not load successfully
with blank-padded rows — `serde` rejects an array that is not exactly five
strings, so loading fails with the invalid-length error. -/
theorem from_json_short_array_fails :
    from_json [("A", [])] = .error .invalidLength := by rfl

/-- Claim C2 as amended: for every glyph-source entry whose value is an
array of exactly 5 strings (and whose key is one character), loading
succeeds and uses every given array string as-is without width validation;
a value array of any other length makes loading fail with the
invalid-length error — no blank-row defaulting takes place. -/
theorem from_json_rows_exactly_five (src : List SourceEntry)
    (hk : ∀ e ∈ src, e.1.toList.length = 1)
    (hv : ∀ e ∈ src, e.2.length = 5) :
    (∃ m, from_json src = .ok m)
    ∧ (∀ a b c d e : String, parseGlyph [a, b, c, d, e] = .ok ⟨a, b, c, d, e⟩)
    ∧ (∀ rows : List String, rows.length ≠ 5 →
        parseGlyph rows = .error .invalidLength) := by
  refine ⟨?_, fun a b c d e => rfl, ?_⟩
  · obtain ⟨m, hok, _, _⟩ := from_json_aux_ok src hk hv CharacterMap.empty
    exact ⟨m, hok⟩
  · intro rows hlen
    unfold parseGlyph
    split
    · simp at hlen
    · rfl

/-- Witness for the amended C2 at a concrete one-entry source. -/
theorem from_json_rows_exactly_five_witness :
    (∃ m, from_json [("A", ["r0", "r1", "r2", "r3", "r4"])] = .ok m)
    ∧ (∀ a b c d e : String, parseGlyph [a, b, c, d, e] = .ok ⟨a, b, c, d, e⟩)
    ∧ (∀ rows : List String, rows.length ≠ 5 →
        parseGlyph rows = .error .invalidLength) :=
  from_json_rows_exactly_five [("A", ["r0", "r1", "r2", "r3", "r4"])]
    (by decide) (by decide)

/-- Counterexample to claim C8 as stated: the loader does not take the key
of an entry to be the first scalar character of the key string — a source
with the two-character key string produces the invalid-key error instead of
loading under the key given by its first character. -/
theorem from_json_multichar_key_fails :
    from_json [("AB", ["a", "b", "c", "d", "e"])] = .error .invalidKey := by rfl

/-- Claim C8 as amended: the loader requires every key string to be exactly
one scalar character (for such a key the entry's key is that character);
loading a source containing an empty-string key fails with the invalid-key
error (stated for the first invalid entry of the source), and so does any
key string that is not exactly one character. -/
theorem from_json_key_exactly_one_char (pre : List SourceEntry)
    (rows : List String) (post : List SourceEntry)
    (hk : ∀ e ∈ pre, e.1.toList.length = 1)
    (hv : ∀ e ∈ pre, e.2.length = 5) :
    from_json (pre ++ ("", rows) :: post) = .error .invalidKey
    ∧ (∀ (s : String) (c : Char), s.toList = [c] → parseKey s = .ok c)
    ∧ (∀ s : String, s.toList.length ≠ 1 → parseKey s = .error .invalidKey) := by
  refine ⟨?_, ?_, ?_⟩
  · obtain ⟨m1, hm1⟩ :=
      from_json_aux_append pre hk hv CharacterMap.empty (("", rows) :: post)
    unfold from_json
    rw [hm1]
    rfl
  · intro s c h
    have hd : s.data = [c] := h
    simp [parseKey, hd]
  · intro s h
    unfold parseKey
    split
    · rename_i c heq
      rw [heq] at h
      simp at h
    · rfl

/-- Witness for the amended C8 at a concrete source with one valid entry
before the empty-string key. -/
theorem from_json_key_exactly_one_char_witness :
    from_json ([("A", ["1", "2", "3", "4", "5"])] ++ ("", ["x"]) :: []) =
      .error .invalidKey
    ∧ (∀ (s : String) (c : Char), s.toList = [c] → parseKey s = .ok c)
    ∧ (∀ s : String, s.toList.length ≠ 1 → parseKey s = .error .invalidKey) :=
  from_json_key_exactly_one_char [("A", ["1", "2", "3", "4", "5"])] ["x"] []
    (by decide) (by decide)

end PrintBigTextRs
